import Mathlib

/-
Verification of the `ore_algebra.analytic.singularity_analysis` module
(bounds on holonomic sequences by singularity analysis).

The development shallowly embeds the parts of the source that the claims
are about:

* the ball-arithmetic substrate (Arb complex/real balls) is modelled by
  rational-center, rational-radius balls with conservative operations
  (the module consumes this substrate, it does not implement it);
* `truncate_tail` (lines 137-190) is translated monomial-by-monomial; a
  polynomial in the variables w = 1/n and logn = log n with ball
  coefficients is a list of terms (coefficient, w-degree, logn-degree);
* the terminating / contiguous-relation branches of `bound_coeff_mono`
  (lines 462-483), the validity-threshold computation of
  `contribution_all_singularity` (lines 909-916 and 990-991), the
  explicit-radius checks (lines 900-906), the analytic-solution filter of
  `contribution_single_singularity` (lines 719-743) and the big-circle
  sampling assembly of `numerical_sol_big_circle` (lines 776-796) are
  translated directly.
-/

namespace OreSing

/-! ## Ball arithmetic substrate

Model of the external Arb complex balls used by the module: a center with
rational real and imaginary parts and a rational radius.  The true value
is any complex number within distance `rad` of the center. -/

/-- Complex ball: center `re + im * I`, radius `rad`.  Models an Arb
complex ball with exact rational data. -/
structure CBall where
  re : ℚ
  im : ℚ
  rad : ℚ
  deriving DecidableEq

/-- Real ball, used to model the Arb enclosure of `log(min_n)` appearing
in the log-degree branch of `truncate_tail`. -/
structure RBall where
  mid : ℚ
  rad : ℚ
  deriving DecidableEq

/-- Center of a complex ball, as a complex number. -/
noncomputable def CBall.midC (c : CBall) : ℂ := ⟨(c.re : ℝ), (c.im : ℝ)⟩

/-- Membership of a complex number in a complex ball. -/
noncomputable def CBall.mem (c : CBall) (z : ℂ) : Prop :=
  Complex.abs (z - c.midC) ≤ (c.rad : ℝ)

/-- Model of Arb `above_abs()`: a rational upper bound for the magnitude
of every point of the ball (`|re| + |im|` bounds the center magnitude). -/
def CBall.aboveAbs (c : CBall) : ℚ := |c.re| + |c.im| + c.rad

/-- Division of a ball by an exact rational (models division by the exact
ball `CB(min_n ** (deg_w - deg))`). -/
def CBall.divQ (c : CBall) (q : ℚ) : CBall := ⟨c.re / q, c.im / q, c.rad / |q|⟩

/-- The ball `CB(0).add_error(r)`. -/
def CBall.zeroErr (r : ℚ) : CBall := ⟨0, 0, r⟩

/-- Product of a complex ball with a real ball, with the standard
conservative radius (the center magnitude `|re| + |im|` upper bound makes
the radius rational). -/
def CBall.mulR (c : CBall) (r : RBall) : CBall :=
  ⟨c.re * r.mid, c.im * r.mid,
    (|c.re| + |c.im|) * r.rad + |r.mid| * c.rad + c.rad * r.rad⟩

/-- Lower endpoint of a real ball. -/
def RBall.lo (b : RBall) : ℚ := b.mid - b.rad

/-- Upper endpoint of a real ball. -/
def RBall.hi (b : RBall) : ℚ := b.mid + b.rad

/-- Model of the Arb enclosure `CB(q).log()`: for `q ≥ 1` the real number
`log q` lies in the interval `[(q-1)/q, q-1]`, so the ball with these
endpoints is a valid enclosure. -/
def logBall (q : ℚ) : RBall := ⟨((q - 1) / q + (q - 1)) / 2, ((q - 1) - (q - 1) / q) / 2⟩

/-- Model of `ball.pow(-m)` on a positive ball: the exact interval image
`[1/hi^m, 1/lo^m]` (any sound implementation encloses it). -/
def RBall.powNeg (b : RBall) (m : ℕ) : RBall :=
  ⟨(1 / b.hi ^ m + 1 / b.lo ^ m) / 2, (1 / b.lo ^ m - 1 / b.hi ^ m) / 2⟩

/-! ## Truncated polynomials

A polynomial in `w = 1/n` and `logn = log n` with ball coefficients is a
list of monomials.  The source iterates `for c, mon in f` over the Sage
polynomial; the list representation keeps one entry per monomial (ball
addition adds centers and radii, so evaluation does not depend on whether
equal monomials are merged). -/

/-- One monomial `c * w^dw * logn^dl` of a truncated polynomial. -/
structure Term where
  c : CBall
  dw : ℕ
  dl : ℕ
  deriving DecidableEq

/-- The coefficient replacement `c if c.mid() == 0 else
CB(0).add_error(c.above_abs())` from `truncate_tail`. -/
def magCoeff (c : CBall) : CBall :=
  if c.re = 0 ∧ c.im = 0 then c else CBall.zeroErr c.aboveAbs

/-- Per-monomial action of `truncate_tail` (lines 162-189).  Without a
log-degree target (`kappa = none`), a monomial of `w`-degree above `deg`
is moved to degree `deg` with coefficient `magCoeff c / min_n^(deg_w - deg)`;
with a target `kappa`, a monomial of `w`-degree at least `deg` is moved to
`w^deg * logn^kappa` and the coefficient is additionally multiplied by the
ball power `log(min_n)^(deg_logn - kappa)`. -/
def truncTerm (deg : ℕ) (min_n : ℚ) (kappa : Option ℕ) (t : Term) : Term :=
  match kappa with
  | none =>
    if deg < t.dw then
      ⟨(magCoeff t.c).divQ (min_n ^ (t.dw - deg)), deg, t.dl⟩
    else t
  | some k =>
    if deg ≤ t.dw then
      ⟨((magCoeff t.c).divQ (min_n ^ (t.dw - deg))).mulR
          ((logBall min_n).powNeg (k - t.dl)), deg, k⟩
    else t

/-- Translation of `truncate_tail(f, deg, min_n, w, kappa, logn)`
(lines 137-190): every monomial is rewritten by `truncTerm`. -/
def truncate_tail (f : List Term) (deg : ℕ) (min_n : ℚ) (kappa : Option ℕ) : List Term :=
  f.map (truncTerm deg min_n kappa)

/-- Value of the polynomial `f` at `(x, y)` when the true coefficient of
the `i`-th monomial is `phi i` (a point of the `i`-th coefficient ball). -/
noncomputable def trueEval : List Term → (ℕ → ℂ) → ℝ → ℝ → ℂ
  | [], _, _, _ => 0
  | t :: ts, phi, x, y =>
      phi 0 * (x : ℂ) ^ t.dw * (y : ℂ) ^ t.dl + trueEval ts (fun i => phi (i + 1)) x y

/-- Center of the ball obtained by evaluating a ball polynomial at the
exact point `(x, y)`. -/
noncomputable def evalMid : List Term → ℝ → ℝ → ℂ
  | [], _, _ => 0
  | t :: ts, x, y => t.c.midC * (x : ℂ) ^ t.dw * (y : ℂ) ^ t.dl + evalMid ts x y

/-- Radius of the ball obtained by evaluating a ball polynomial at the
exact point `(x, y)`. -/
noncomputable def evalRad : List Term → ℝ → ℝ → ℝ
  | [], _, _ => 0
  | t :: ts, x, y => (t.c.rad : ℝ) * |x| ^ t.dw * |y| ^ t.dl + evalRad ts x y

/-! ## Error model

The configuration errors of the module are `ValueError`s; the crash on an
unpacked `None` (see `contribution_all_singularity`, line 939) surfaces
as a `TypeError`. -/

/-- Python exceptions raised by the paths the claims are about. -/
inductive PyError where
  | valueError : String → PyError
  | typeError : String → PyError
  deriving DecidableEq

/-! ## The terminating branch of `bound_coeff_mono` (lines 462-467)

For `alpha` a non-positive integer and `l = 0` the expansion of
`(1-z)^(-alpha)` terminates; the source raises a `ValueError` when
`min_n <= -int(alpha)` and otherwise returns the zero polynomial `R(0)`
(the empty list of monomials). -/

/-- Translation of the `elif l == 0` branch of `bound_coeff_mono` for a
non-positive integer `alpha`. -/
def bcm_l0 (alpha : ℤ) (min_n : ℚ) : Except PyError (List Term) :=
  if min_n ≤ ((-alpha : ℤ) : ℚ) then .error (.valueError "min_n too small!")
  else .ok []

/-! ## The contiguous-relation recursion of `bound_coeff_mono` (lines 468-483)

For a non-positive integer `alpha` with `l > 0`, the source recurses into
exactly `bound_coeff_mono(alpha + 1, l, ...)` and
`bound_coeff_mono(alpha + 1, l - 1, ...)`.  A call with non-integer or
positive `alpha` (line 433) and a call with `l = 0` (line 462) do not
recurse.  `bcmCalls` records the direct recursive calls made from
`(alpha, l)` and `bcmDepth` the recursion depth. -/

/-- Direct recursive calls of `bound_coeff_mono` from the pair
`(alpha, l)`, for integer `alpha`. -/
def bcmCalls (alpha : ℤ) (l : ℕ) : List (ℤ × ℕ) :=
  if alpha ≤ 0 then
    if l = 0 then [] else [(alpha + 1, l), (alpha + 1, l - 1)]
  else []

/-- Recursion depth of `bound_coeff_mono` from the pair `(alpha, l)`,
for integer `alpha`. -/
def bcmDepth (alpha : ℤ) (l : ℕ) : ℕ :=
  if h : alpha ≤ 0 ∧ l ≠ 0 then
    1 + max (bcmDepth (alpha + 1) l) (bcmDepth (alpha + 1) (l - 1))
  else 0
  termination_by (1 - alpha).toNat
  decreasing_by
  · simp_wf
    omega
  · simp_wf
    omega

/-! ## The analytic-solution filter of `contribution_single_singularity`
(lines 719-743) and the unconditional unpacking in
`contribution_all_singularity` (line 939).

A local solution is discarded as analytic when its `leftmost` exponent is
a non-negative... precisely: `leftmost` is an integer, `leftmost + shift ≥ 0`
and every non-leading log-coefficient is zero.  When every solution is
analytic, `contribution_single_singularity` executes a bare `return`
(value `None`); `contribution_all_singularity` immediately unpacks the
result into five variables, which raises a `TypeError` on `None`. -/

/-- One critical monomial (element of `critical_monomials(ldop)`):
`leftmost` exponent, integer `shift`, and the coefficient lists of the
log-powers for each term of `value`. -/
structure CritSol where
  leftmost : ℚ
  shift : ℕ
  value : List (List ℚ)
  deriving DecidableEq

/-- The analyticity test of lines 720-723: `sol.leftmost.is_integer() and
sol.leftmost + sol.shift >= 0 and all(c.is_zero() for term in
sol.value.values() for c in term[1:])`. -/
def isAnalyticSol (sol : CritSol) : Bool :=
  (sol.leftmost.den == 1)
    && decide (0 ≤ sol.leftmost + (sol.shift : ℚ))
    && sol.value.all (fun term => (term.drop 1).all (fun co => co == 0))

/-- Translation of the analytic-solution filter and early return of
`contribution_single_singularity`: `None` when every local solution is
analytic, otherwise the minimal valuation
`nonanalytic[0].leftmost + nonanalytic[0].shift` (standing in for the
full contribution record). -/
def contribution_single_model (crit : List CritSol) : Option ℚ :=
  match crit.filter (fun sol => ! isAnalyticSol sol) with
  | [] => none
  | sol :: _ => some (sol.leftmost + sol.shift)

/-- Translation of the per-singularity loop of
`contribution_all_singularity` (lines 938-945): the 5-tuple returned by
`contribution_single_singularity` is unpacked unconditionally, so a
`None` result raises a `TypeError` and no bound is produced. -/
def contribution_all_model : List (List CritSol) → Except PyError (List ℚ)
  | [] => .ok []
  | crit :: rest =>
    match contribution_single_model crit with
    | none => .error (.typeError "cannot unpack non-iterable NoneType")
    | some v =>
      match contribution_all_model rest with
      | .error e => .error e
      | .ok l => .ok (v :: l)

/-! ## Big-circle sampling assembly (`numerical_sol_big_circle`,
lines 776-796).

Per arc, the source builds `path_upper = [0] + [[z] for z in
circle_upper]`, runs `deq.numerical_solution` on it, then builds
`path_lower = [0] + [[z.conjugate()] for z in circle_upper]` and runs
`deq.numerical_solution` a second time on the conjugated path (the
real-coefficient optimization is a `TODO` in the source).  Sample points
are modelled as Gaussian rationals; the external rigorous ODE solver is a
parameter returning (point, value) pairs. -/

/-- A sample point (Gaussian rational). -/
abbrev Pt := ℚ × ℚ

/-- Complex conjugation of a sample point. -/
def conjPt (p : Pt) : Pt := (p.1, -p.2)

/-- The upper-half path `[0] + [[z] for z in circle_upper]`. -/
def path_upper (circle_upper : List Pt) : List Pt := (0, 0) :: circle_upper

/-- The lower-half path `[0] + [[z.conjugate()] for z in circle_upper]`. -/
def path_lower (circle_upper : List Pt) : List Pt :=
  (0, 0) :: circle_upper.map conjPt

/-- The paths passed to `deq.numerical_solution` for one arc. -/
def solverCalls (circle_upper : List Pt) : List (List Pt) :=
  [path_upper circle_upper, path_lower circle_upper]

/-- The pairs accumulated for one arc:
`pairs += solve(path_upper); pairs += solve(path_lower)`. -/
def bigCirclePairs (solve : List Pt → List (Pt × Pt)) (circle_upper : List Pt) :
    List (Pt × Pt) :=
  solve (path_upper circle_upper) ++ solve (path_lower circle_upper)

/-- A concrete instantiation of the external solver whose values are not
conjugate-symmetric (values of `z ↦ z + i`); it reveals that the
lower-half values are produced by the second solver run, not by
conjugating the upper-half samples. -/
def testSolve (path : List Pt) : List (Pt × Pt) :=
  path.map (fun z => (z, (z.1, z.2 + 1)))

/-! ## Theorems -/

lemma magCoeff_re (c : CBall) : (magCoeff c).re = 0 := by
  unfold magCoeff
  split
  · rename_i h
    exact h.1
  · rfl

lemma magCoeff_im (c : CBall) : (magCoeff c).im = 0 := by
  unfold magCoeff
  split
  · rename_i h
    exact h.2
  · rfl

lemma magCoeff_rad (c : CBall) :
    (magCoeff c).rad = if c.re = 0 ∧ c.im = 0 then c.rad else c.aboveAbs := by
  by_cases h : c.re = 0 ∧ c.im = 0
  · simp [magCoeff, h]
  · simp [magCoeff, h, CBall.zeroErr]

/-- C3 counterexample: the monomial `c * w^0` with inexact coefficient
`c = 1 + [±1]` and `w`-degree `0` at or below the target degree `1` is
copied verbatim by `truncate_tail` — its coefficient keeps the original
center `1`, it is not replaced by a zero-centered magnitude ball. -/
theorem truncate_tail_keeps_center_below_degree :
    truncate_tail [⟨⟨1, 0, 1⟩, 0, 0⟩] 1 50 none = [⟨⟨1, 0, 1⟩, 0, 0⟩]
    ∧ (⟨⟨1, 0, 1⟩, 0, 0⟩ : Term).dw ≤ 1
    ∧ (⟨⟨1, 0, 1⟩, 0, 0⟩ : Term).c.rad ≠ 0
    ∧ (⟨⟨1, 0, 1⟩, 0, 0⟩ : Term).c.re ≠ 0 := by
  decide

/-- C3 amended: `truncate_tail` rewrites the `i`-th monomial in place.  A
monomial strictly below the target degree (at or below it, when no
log-degree target is given) is copied unchanged, original center
included; a monomial at the degree threshold or above it gets a
zero-centered coefficient whose radius is the original coefficient's
magnitude bound (its radius when the center is already zero) divided by
`min_n^(deg_w - deg)` (and, with a log-degree target, multiplied by the
enclosure of `log(min_n)^(deg_logn - kappa)`). -/
theorem truncate_tail_coefficient_policy (f : List Term) (deg : ℕ) (min_n : ℚ)
    (kappa : Option ℕ) (i : ℕ) (t : Term) (ht : f[i]? = some t) :
    (truncate_tail f deg min_n kappa)[i]? = some (truncTerm deg min_n kappa t)
    ∧ (kappa = none → t.dw ≤ deg → truncTerm deg min_n kappa t = t)
    ∧ (∀ k, kappa = some k → t.dw < deg → truncTerm deg min_n kappa t = t)
    ∧ (kappa = none → deg < t.dw →
        (truncTerm deg min_n kappa t).c.re = 0
        ∧ (truncTerm deg min_n kappa t).c.im = 0
        ∧ (truncTerm deg min_n kappa t).c.rad
            = (if t.c.re = 0 ∧ t.c.im = 0 then t.c.rad else t.c.aboveAbs)
                / |min_n ^ (t.dw - deg)|
        ∧ (truncTerm deg min_n kappa t).dw = deg
        ∧ (truncTerm deg min_n kappa t).dl = t.dl)
    ∧ (∀ k, kappa = some k → deg ≤ t.dw →
        (truncTerm deg min_n kappa t).c.re = 0
        ∧ (truncTerm deg min_n kappa t).c.im = 0
        ∧ (truncTerm deg min_n kappa t).dw = deg
        ∧ (truncTerm deg min_n kappa t).dl = k) := by
  refine ⟨by simp [truncate_tail, List.getElem?_map, ht], ?_, ?_, ?_, ?_⟩
  · rintro rfl hle
    simp [truncTerm, Nat.not_lt.mpr hle]
  · rintro k rfl hlt
    simp [truncTerm, Nat.not_le.mpr hlt]
  · rintro rfl hgt
    simp [truncTerm, hgt, CBall.divQ, magCoeff_re, magCoeff_im, magCoeff_rad]
  · rintro k rfl hge
    simp [truncTerm, hge, CBall.divQ, CBall.mulR, magCoeff_re, magCoeff_im]

/-- Witness for `truncate_tail_coefficient_policy` at a concrete input. -/
theorem truncate_tail_coefficient_policy_witness :
    (([⟨⟨1, 0, 1⟩, 2, 0⟩] : List Term)[0]? = some ⟨⟨1, 0, 1⟩, 2, 0⟩)
    ∧ ((truncate_tail [⟨⟨1, 0, 1⟩, 2, 0⟩] 1 50 none)[0]?
          = some (truncTerm 1 50 none ⟨⟨1, 0, 1⟩, 2, 0⟩)
        ∧ (none = (none : Option ℕ) → (⟨⟨1, 0, 1⟩, 2, 0⟩ : Term).dw ≤ 1 →
            truncTerm 1 50 none ⟨⟨1, 0, 1⟩, 2, 0⟩ = ⟨⟨1, 0, 1⟩, 2, 0⟩)
        ∧ (∀ k, (none : Option ℕ) = some k → (⟨⟨1, 0, 1⟩, 2, 0⟩ : Term).dw < 1 →
            truncTerm 1 50 none ⟨⟨1, 0, 1⟩, 2, 0⟩ = ⟨⟨1, 0, 1⟩, 2, 0⟩)
        ∧ ((none : Option ℕ) = none → 1 < (⟨⟨1, 0, 1⟩, 2, 0⟩ : Term).dw →
            (truncTerm 1 50 none ⟨⟨1, 0, 1⟩, 2, 0⟩).c.re = 0
            ∧ (truncTerm 1 50 none ⟨⟨1, 0, 1⟩, 2, 0⟩).c.im = 0
            ∧ (truncTerm 1 50 none ⟨⟨1, 0, 1⟩, 2, 0⟩).c.rad
                = (if (⟨(1 : ℚ), 0, 1⟩ : CBall).re = 0 ∧ (⟨(1 : ℚ), 0, 1⟩ : CBall).im = 0
                    then (⟨(1 : ℚ), 0, 1⟩ : CBall).rad
                    else (⟨(1 : ℚ), 0, 1⟩ : CBall).aboveAbs)
                    / |(50 : ℚ) ^ ((⟨⟨1, 0, 1⟩, 2, 0⟩ : Term).dw - 1)|
            ∧ (truncTerm 1 50 none ⟨⟨1, 0, 1⟩, 2, 0⟩).dw = 1
            ∧ (truncTerm 1 50 none ⟨⟨1, 0, 1⟩, 2, 0⟩).dl = (⟨⟨1, 0, 1⟩, 2, 0⟩ : Term).dl)
        ∧ (∀ k, (none : Option ℕ) = some k → 1 ≤ (⟨⟨1, 0, 1⟩, 2, 0⟩ : Term).dw →
            (truncTerm 1 50 none ⟨⟨1, 0, 1⟩, 2, 0⟩).c.re = 0
            ∧ (truncTerm 1 50 none ⟨⟨1, 0, 1⟩, 2, 0⟩).c.im = 0
            ∧ (truncTerm 1 50 none ⟨⟨1, 0, 1⟩, 2, 0⟩).dw = 1
            ∧ (truncTerm 1 50 none ⟨⟨1, 0, 1⟩, 2, 0⟩).dl = k)) :=
  ⟨rfl, truncate_tail_coefficient_policy [⟨⟨1, 0, 1⟩, 2, 0⟩] 1 50 none 0 ⟨⟨1, 0, 1⟩, 2, 0⟩ rfl⟩

/-- C4: for a non-positive integer `alpha` with `l = 0`,
`bound_coeff_mono` raises a `ValueError` exactly when
`min_n ≤ -alpha`, and for `min_n > -alpha` it returns the zero
polynomial (whose evaluation is exactly zero, center and radius). -/
theorem bcm_l0_spec (alpha : ℤ) (min_n : ℚ) (halpha : alpha ≤ 0) :
    ((∃ e, bcm_l0 alpha min_n = .error e) ↔ min_n ≤ ((-alpha : ℤ) : ℚ))
    ∧ (((-alpha : ℤ) : ℚ) < min_n →
        bcm_l0 alpha min_n = .ok []
        ∧ ∀ x y : ℝ, evalMid [] x y = 0 ∧ evalRad [] x y = 0) := by
  have hcast : ((-alpha : ℤ) : ℚ) = -(alpha : ℚ) := by push_cast; ring
  constructor
  · constructor
    · rintro ⟨e, he⟩
      by_contra hlt
      rw [hcast] at hlt
      simp [bcm_l0, hlt] at he
    · intro h
      rw [hcast] at h
      exact ⟨PyError.valueError "min_n too small!", by simp [bcm_l0, h]⟩
  · intro h
    rw [hcast] at h
    refine ⟨by simp [bcm_l0, not_le.mpr h], fun x y => ⟨rfl, rfl⟩⟩

/-- Witness for `bcm_l0_spec` at `alpha = -2`, `min_n = 3`. -/
theorem bcm_l0_spec_witness :
    ((-2 : ℤ) ≤ 0)
    ∧ (((∃ e, bcm_l0 (-2) 3 = .error e) ↔ (3 : ℚ) ≤ ((-(-2) : ℤ) : ℚ))
      ∧ (((-(-2) : ℤ) : ℚ) < 3 →
          bcm_l0 (-2) 3 = .ok []
          ∧ ∀ x y : ℝ, evalMid [] x y = 0 ∧ evalRad [] x y = 0)) :=
  ⟨by decide, bcm_l0_spec (-2) 3 (by decide)⟩

/-- C5 counterexample: from `(alpha, l) = (0, 1)` (a non-positive integer
`alpha` with `l > 0`) the contiguous-relation reduction makes the call
`(alpha + 1, l) = (1, 1)`, which decreases neither `|alpha|` (it grows
from `0` to `1`) nor `l`. -/
theorem bcmCalls_zero_no_decrease :
    bcmCalls 0 1 = [(1, 1), (1, 0)]
    ∧ (1, 1) ∈ bcmCalls 0 1
    ∧ ¬((1 : ℤ).natAbs < (0 : ℤ).natAbs ∨ (1 : ℕ) < 1) := by
  decide

lemma bcmDepth_of_pos (alpha : ℤ) (h : 0 < alpha) (l : ℕ) : bcmDepth alpha l = 0 := by
  unfold bcmDepth
  rw [dif_neg (by omega)]

lemma bcmDepth_neg (n : ℕ) : ∀ l, bcmDepth (-(n : ℤ)) l ≤ n + l := by
  induction n with
  | zero =>
    intro l
    by_cases hl : l = 0
    · unfold bcmDepth
      rw [dif_neg (by omega)]
      omega
    · unfold bcmDepth
      rw [dif_pos ⟨by omega, hl⟩]
      rw [bcmDepth_of_pos _ (by omega), bcmDepth_of_pos _ (by omega)]
      omega
  | succ n ih =>
    intro l
    by_cases hl : l = 0
    · unfold bcmDepth
      rw [dif_neg (by omega)]
      omega
    · unfold bcmDepth
      rw [dif_pos ⟨by omega, hl⟩]
      have he : (-((n + 1 : ℕ) : ℤ)) + 1 = -(n : ℤ) := by push_cast; ring
      rw [he]
      have h1 := ih l
      have h2 := ih (l - 1)
      omega

lemma bcmDepth_le (alpha : ℤ) (l : ℕ) (ha : alpha ≤ 0) :
    bcmDepth alpha l ≤ alpha.natAbs + l := by
  have h : alpha = -(alpha.natAbs : ℤ) := by omega
  rw [h]
  have h2 : (-(alpha.natAbs : ℤ)).natAbs = alpha.natAbs := by omega
  rw [h2]
  exact bcmDepth_neg alpha.natAbs l

/-- C5 amended: for a non-positive integer `alpha` with `l > 0`,
`bound_coeff_mono` reduces via exactly the two calls `(alpha + 1, l)` and
`(alpha + 1, l - 1)`; when `alpha < 0` both calls decrease `|alpha|` by
one, and when `alpha = 0` both calls leave the reduction branch
immediately (`alpha + 1 = 1` is not a non-positive integer), so the
recursion terminates within depth `|alpha| + l`. -/
theorem bcm_recursion_structure (alpha : ℤ) (l : ℕ) (ha : alpha ≤ 0) :
    (l ≠ 0 → bcmCalls alpha l = [(alpha + 1, l), (alpha + 1, l - 1)])
    ∧ (alpha < 0 → ∀ c ∈ bcmCalls alpha l, c.1.natAbs + 1 = alpha.natAbs)
    ∧ bcmDepth alpha l ≤ alpha.natAbs + l := by
  refine ⟨fun hl => by simp [bcmCalls, ha, hl], ?_, bcmDepth_le alpha l ha⟩
  intro hneg c hc
  by_cases hl : l = 0
  · simp [bcmCalls, ha, hl] at hc
  · simp [bcmCalls, ha, hl] at hc
    rcases hc with rfl | rfl
    · show (alpha + 1).natAbs + 1 = alpha.natAbs
      omega
    · show (alpha + 1).natAbs + 1 = alpha.natAbs
      omega

/-- Witness for `bcm_recursion_structure` at `alpha = -3`, `l = 2`. -/
theorem bcm_recursion_structure_witness :
    ((-3 : ℤ) ≤ 0)
    ∧ (((2 : ℕ) ≠ 0 → bcmCalls (-3) 2 = [(-3 + 1, 2), (-3 + 1, 2 - 1)])
      ∧ ((-3 : ℤ) < 0 → ∀ c ∈ bcmCalls (-3) 2, c.1.natAbs + 1 = (-3 : ℤ).natAbs)
      ∧ bcmDepth (-3) 2 ≤ (-3 : ℤ).natAbs + 2) :=
  ⟨by decide, bcm_recursion_structure (-3) 2 (by decide)⟩

/-- C9 (code-bug evidence): for a dominant singularity whose every local
solution is demonstrably analytic (here a single solution with integer
exponent `0`, shift `0` and no non-leading log coefficients), the
analytic filter discards everything, `contribution_single_singularity`
returns `None`, and the unconditional 5-tuple unpacking in
`contribution_all_singularity` raises a `TypeError`: no bound is
produced, contrary to the claim that the computation still completes. -/
theorem analytic_singularity_crash :
    isAnalyticSol ⟨0, 0, [[1]]⟩ = true
    ∧ contribution_single_model [⟨0, 0, [[1]]⟩] = none
    ∧ contribution_all_model [[⟨0, 0, [[1]]⟩]]
        = .error (.typeError "cannot unpack non-iterable NoneType") := by
  have h1 : isAnalyticSol ⟨0, 0, [[1]]⟩ = true := by
    simp [isAnalyticSol]
  have h2 : contribution_single_model [⟨0, 0, [[1]]⟩] = none := by
    simp [contribution_single_model, h1]
  refine ⟨h1, h2, ?_⟩
  simp [contribution_all_model, h2]

/-- C8 counterexample: the big-circle sampler does solve the ODE along
the lower-half path (which contains the point `-i`, not in the upper
half-plane), and with a non-conjugate-symmetric solver the value
recorded at `-i` is the solver's value `(0, 0)`, not the conjugate
`(0, -2)` of the upper-half sample at `i` — so the lower-half values are
not obtained by mirroring the upper-half samples. -/
theorem big_circle_lower_path_solved :
    path_lower [((0 : ℚ), (1 : ℚ))] ∈ solverCalls [((0 : ℚ), (1 : ℚ))]
    ∧ ((0 : ℚ), (-1 : ℚ)) ∈ path_lower [((0 : ℚ), (1 : ℚ))]
    ∧ bigCirclePairs testSolve [((0 : ℚ), (1 : ℚ))]
        = [((0, 0), (0, 1)), ((0, 1), (0, 2)), ((0, 0), (0, 1)), ((0, -1), (0, 0))]
    ∧ (((0 : ℚ), (0 : ℚ)) : Pt) ≠ conjPt ((0 : ℚ), (2 : ℚ)) := by
  refine ⟨?_, ?_, ?_, ?_⟩
  · simp [solverCalls]
  · simp [path_lower, conjPt]
  · simp [bigCirclePairs, testSolve, path_upper, path_lower, conjPt]
    norm_num
  · simp [conjPt, Prod.ext_iff]

/-- C8 amended: for every arc and every solver, the sampler mirrors the
sample points (the lower-half path is the conjugate, point by point, of
the upper-half path) but invokes the ODE solver independently on both
paths; the accumulated pairs are the concatenation of the two solver
runs. -/
theorem big_circle_sampling_structure (cu : List Pt)
    (solve : List Pt → List (Pt × Pt)) :
    solverCalls cu = [path_upper cu, path_lower cu]
    ∧ (path_lower cu).map conjPt = path_upper cu
    ∧ bigCirclePairs solve cu = solve (path_upper cu) ++ solve (path_lower cu) := by
  refine ⟨rfl, ?_, rfl⟩
  simp [path_lower, path_upper, conjPt, List.map_map, Function.comp_def]

/-! ## The `s > 2` guard of `SingularityAnalyzer.process_modZ_class`
(lines 562-565). -/

/-- Translation of `s = floor(self.min_n / (abs(self.leftmost) +
abs(order)))`; the real algebraic modulus `abs(self.leftmost)` enters as
the parameter `abs_leftmost`. -/
def process_modZ_s (min_n abs_leftmost : ℚ) (order : ℤ) : ℤ :=
  ⌊min_n / (abs_leftmost + |(order : ℚ)|)⌋

/-- Translation of the guard `if s <= 2: raise ValueError(...)`. -/
def process_modZ_check (min_n abs_leftmost : ℚ) (order : ℤ) : Except PyError Unit :=
  if process_modZ_s min_n abs_leftmost order ≤ 2 then
    .error (.valueError "min_n too small! Cannot guarantee s>2")
  else .ok ()

/-- C10: the exponent-class processing fails with a `ValueError` exactly
when `floor(min_n / (|leftmost| + |order|)) ≤ 2`, i.e. exactly when
`min_n < 3 * (|leftmost| + |order|)`. -/
theorem process_modZ_guard (min_n abs_leftmost : ℚ) (order : ℤ)
    (h : 0 < abs_leftmost + |(order : ℚ)|) :
    ((∃ e, process_modZ_check min_n abs_leftmost order = .error e)
        ↔ ⌊min_n / (abs_leftmost + |(order : ℚ)|)⌋ ≤ 2)
    ∧ (⌊min_n / (abs_leftmost + |(order : ℚ)|)⌋ ≤ 2
        ↔ min_n < 3 * (abs_leftmost + |(order : ℚ)|)) := by
  constructor
  · constructor
    · rintro ⟨e, he⟩
      by_contra hgt
      simp [process_modZ_check, process_modZ_s, hgt] at he
    · intro hle
      exact ⟨PyError.valueError "min_n too small! Cannot guarantee s>2",
        by simp [process_modZ_check, process_modZ_s, hle]⟩
  · have h3 : (⌊min_n / (abs_leftmost + |(order : ℚ)|)⌋ ≤ 2)
        ↔ ⌊min_n / (abs_leftmost + |(order : ℚ)|)⌋ < 3 := by omega
    rw [h3, Int.floor_lt]
    push_cast
    rw [div_lt_iff₀ h]

/-! ## Soundness of `truncate_tail` (claim about lines 137-190)

For every choice of true coefficient values inside the coefficient balls
of `f`, the value of `f` at `(1/n, log n)` lies in the ball obtained by
evaluating the truncated polynomial at the same point, for every
`n ≥ min_n`. -/

lemma midC_eq_zero {c : CBall} (h1 : c.re = 0) (h2 : c.im = 0) : c.midC = 0 := by
  simp [CBall.midC, h1, h2, Complex.ext_iff]

lemma mem_abs_le_magCoeff {c : CBall} {z : ℂ} (hz : c.mem z) :
    Complex.abs z ≤ ((magCoeff c).rad : ℝ) := by
  have hz' : Complex.abs (z - c.midC) ≤ (c.rad : ℝ) := hz
  by_cases h : c.re = 0 ∧ c.im = 0
  · rw [magCoeff_rad, if_pos h]
    have hm : c.midC = 0 := midC_eq_zero h.1 h.2
    rw [hm, sub_zero] at hz'
    exact hz'
  · rw [magCoeff_rad, if_neg h]
    have h1 : Complex.abs z ≤ Complex.abs (z - c.midC) + Complex.abs c.midC := by
      have := Complex.abs.add_le (z - c.midC) c.midC
      simpa using this
    have h2 : Complex.abs c.midC ≤ |(c.re : ℝ)| + |(c.im : ℝ)| := by
      have h3 := Complex.abs_le_abs_re_add_abs_im c.midC
      simpa [CBall.midC] using h3
    have h4 : ((c.aboveAbs : ℚ) : ℝ) = |(c.re : ℝ)| + |(c.im : ℝ)| + (c.rad : ℝ) := by
      unfold CBall.aboveAbs
      push_cast
      ring
    rw [h4]
    linarith

lemma divQ_mag_midC (c : CBall) (q : ℚ) : ((magCoeff c).divQ q).midC = 0 := by
  simp [CBall.divQ, CBall.midC, magCoeff_re, magCoeff_im, Complex.ext_iff]

lemma divQ_mag_rad (c : CBall) (q : ℚ) :
    ((magCoeff c).divQ q).rad = (magCoeff c).rad / |q| := rfl

lemma mulR_mag_midC (c : CBall) (q : ℚ) (r : RBall) :
    (((magCoeff c).divQ q).mulR r).midC = 0 := by
  simp [CBall.mulR, CBall.divQ, CBall.midC, magCoeff_re, magCoeff_im, Complex.ext_iff]

lemma mulR_mag_rad (c : CBall) (q : ℚ) (r : RBall) (hr : 0 ≤ r.mid) :
    (((magCoeff c).divQ q).mulR r).rad = ((magCoeff c).rad / |q|) * (r.mid + r.rad) := by
  simp [CBall.mulR, CBall.divQ, magCoeff_re, magCoeff_im, abs_of_nonneg hr]
  ring

lemma logBall_lo (q : ℚ) : (logBall q).lo = (q - 1) / q := by
  unfold logBall RBall.lo
  ring

lemma logBall_hi (q : ℚ) : (logBall q).hi = q - 1 := by
  unfold logBall RBall.hi
  ring

lemma powNeg_mid_add_rad (b : RBall) (m : ℕ) :
    (b.powNeg m).mid + (b.powNeg m).rad = 1 / b.lo ^ m := by
  unfold RBall.powNeg
  ring

lemma powNeg_mid_nonneg (b : RBall) (m : ℕ) (h1 : 0 < b.lo) (h2 : 0 < b.hi) :
    0 ≤ (b.powNeg m).mid := by
  unfold RBall.powNeg
  positivity

lemma term_unchanged_bound (t : Term) (z : ℂ) (x y : ℝ) (hz : t.c.mem z) :
    Complex.abs (z * (x : ℂ) ^ t.dw * (y : ℂ) ^ t.dl
        - t.c.midC * (x : ℂ) ^ t.dw * (y : ℂ) ^ t.dl)
      ≤ (t.c.rad : ℝ) * |x| ^ t.dw * |y| ^ t.dl := by
  have hz' : Complex.abs (z - t.c.midC) ≤ (t.c.rad : ℝ) := hz
  have heq : z * (x : ℂ) ^ t.dw * (y : ℂ) ^ t.dl
      - t.c.midC * (x : ℂ) ^ t.dw * (y : ℂ) ^ t.dl
      = (z - t.c.midC) * ((x : ℂ) ^ t.dw * (y : ℂ) ^ t.dl) := by ring
  rw [heq]
  simp only [map_mul, map_pow, Complex.abs_ofReal]
  rw [mul_assoc]
  exact mul_le_mul_of_nonneg_right hz' (by positivity)

lemma pow_le_pow_mul_div {y lo : ℝ} (hlo : 0 < lo) (hy : lo ≤ y) {dl k : ℕ}
    (hdl : dl ≤ k) : y ^ dl ≤ y ^ k * (1 / lo ^ (k - dl)) := by
  have hy0 : 0 < y := lt_of_lt_of_le hlo hy
  rw [one_div, ← div_eq_mul_inv, le_div_iff₀ (pow_pos hlo _)]
  calc y ^ dl * lo ^ (k - dl) ≤ y ^ dl * y ^ (k - dl) := by
        exact mul_le_mul_of_nonneg_left (pow_le_pow_left hlo.le hy _) (by positivity)
    _ = y ^ k := by
        rw [← pow_add]
        congr 1
        omega

/-- Per-monomial soundness of `truncate_tail` without a log-degree
target. -/
lemma truncTerm_bound_none (deg : ℕ) (min_n : ℚ) (t : Term) (z : ℂ) (x y : ℝ)
    (hz : t.c.mem z) (hmn : 0 < min_n) (hx : 0 < x) (hxm : x ≤ 1 / (min_n : ℝ)) :
    Complex.abs (z * (x : ℂ) ^ t.dw * (y : ℂ) ^ t.dl
        - (truncTerm deg min_n none t).c.midC
            * (x : ℂ) ^ (truncTerm deg min_n none t).dw
            * (y : ℂ) ^ (truncTerm deg min_n none t).dl)
      ≤ ((truncTerm deg min_n none t).c.rad : ℝ)
          * |x| ^ (truncTerm deg min_n none t).dw
          * |y| ^ (truncTerm deg min_n none t).dl := by
  by_cases h : deg < t.dw
  · simp only [truncTerm, if_pos h]
    rw [divQ_mag_midC, divQ_mag_rad]
    simp only [zero_mul, sub_zero, map_mul, map_pow, Complex.abs_ofReal]
    have hmr : Complex.abs z ≤ ((magCoeff t.c).rad : ℝ) := mem_abs_le_magCoeff hz
    have hmr0 : (0 : ℝ) ≤ ((magCoeff t.c).rad : ℝ) :=
      le_trans (Complex.abs.nonneg z) hmr
    have habsq : |min_n ^ (t.dw - deg)| = min_n ^ (t.dw - deg) :=
      abs_of_pos (pow_pos hmn _)
    have hsplit : |x| ^ t.dw = |x| ^ deg * |x| ^ (t.dw - deg) := by
      rw [← pow_add]
      congr 1
      omega
    have hxK : |x| ^ (t.dw - deg) ≤ (1 / (min_n : ℝ)) ^ (t.dw - deg) := by
      apply pow_le_pow_left (abs_nonneg x)
      rw [abs_of_pos hx]
      exact hxm
    have hstep : Complex.abs z * |x| ^ t.dw * |y| ^ t.dl
        ≤ ((magCoeff t.c).rad : ℝ)
            * (|x| ^ deg * (1 / (min_n : ℝ)) ^ (t.dw - deg)) * |y| ^ t.dl := by
      rw [hsplit]
      have h1 : Complex.abs z * (|x| ^ deg * |x| ^ (t.dw - deg))
          ≤ ((magCoeff t.c).rad : ℝ)
              * (|x| ^ deg * (1 / (min_n : ℝ)) ^ (t.dw - deg)) := by
        apply mul_le_mul hmr _ (by positivity) hmr0
        exact mul_le_mul_of_nonneg_left hxK (by positivity)
      exact mul_le_mul_of_nonneg_right h1 (by positivity)
    refine le_trans hstep (le_of_eq ?_)
    rw [habsq]
    push_cast
    have hmn0 : ((min_n : ℝ)) ≠ 0 := by positivity
    field_simp
  · simp only [truncTerm, if_neg h]
    exact term_unchanged_bound t z x y hz

/-- Per-monomial soundness of `truncate_tail` with a log-degree target
`kappa = k`. -/
lemma truncTerm_bound_some (deg : ℕ) (min_n : ℚ) (k : ℕ) (t : Term) (z : ℂ) (x y : ℝ)
    (hz : t.c.mem z) (hmn : 1 < min_n) (hx : 0 < x) (hxm : x ≤ 1 / (min_n : ℝ))
    (hdl : t.dl ≤ k) (hy : ((min_n : ℝ) - 1) / (min_n : ℝ) ≤ y) :
    Complex.abs (z * (x : ℂ) ^ t.dw * (y : ℂ) ^ t.dl
        - (truncTerm deg min_n (some k) t).c.midC
            * (x : ℂ) ^ (truncTerm deg min_n (some k) t).dw
            * (y : ℂ) ^ (truncTerm deg min_n (some k) t).dl)
      ≤ ((truncTerm deg min_n (some k) t).c.rad : ℝ)
          * |x| ^ (truncTerm deg min_n (some k) t).dw
          * |y| ^ (truncTerm deg min_n (some k) t).dl := by
  have hmn0 : (0 : ℚ) < min_n := lt_trans one_pos hmn
  have hloQ : (0 : ℚ) < (logBall min_n).lo := by
    rw [logBall_lo]
    apply div_pos (by linarith) hmn0
  have hhiQ : (0 : ℚ) < (logBall min_n).hi := by
    rw [logBall_hi]
    linarith
  by_cases h : deg ≤ t.dw
  · simp only [truncTerm, if_pos h]
    rw [mulR_mag_midC, mulR_mag_rad _ _ _ (powNeg_mid_nonneg _ _ hloQ hhiQ)]
    rw [powNeg_mid_add_rad]
    simp only [zero_mul, sub_zero, map_mul, map_pow, Complex.abs_ofReal]
    have hmr : Complex.abs z ≤ ((magCoeff t.c).rad : ℝ) := mem_abs_le_magCoeff hz
    have hmr0 : (0 : ℝ) ≤ ((magCoeff t.c).rad : ℝ) :=
      le_trans (Complex.abs.nonneg z) hmr
    have habsq : |min_n ^ (t.dw - deg)| = min_n ^ (t.dw - deg) :=
      abs_of_pos (pow_pos hmn0 _)
    have hloR : (0 : ℝ) < (((logBall min_n).lo : ℚ) : ℝ) := by exact_mod_cast hloQ
    have hyR : (((logBall min_n).lo : ℚ) : ℝ) ≤ y := by
      rw [logBall_lo]
      push_cast
      exact hy
    have hy0 : (0 : ℝ) < y := lt_of_lt_of_le hloR hyR
    have hsplit : |x| ^ t.dw = |x| ^ deg * |x| ^ (t.dw - deg) := by
      rw [← pow_add]
      congr 1
      omega
    have hxK : |x| ^ (t.dw - deg) ≤ (1 / (min_n : ℝ)) ^ (t.dw - deg) := by
      apply pow_le_pow_left (abs_nonneg x)
      rw [abs_of_pos hx]
      exact hxm
    have hyK : |y| ^ t.dl ≤ |y| ^ k * (1 / (((logBall min_n).lo : ℚ) : ℝ) ^ (k - t.dl)) := by
      rw [abs_of_pos hy0]
      exact pow_le_pow_mul_div hloR hyR hdl
    have hstep : Complex.abs z * |x| ^ t.dw * |y| ^ t.dl
        ≤ ((magCoeff t.c).rad : ℝ)
            * (|x| ^ deg * (1 / (min_n : ℝ)) ^ (t.dw - deg))
            * (|y| ^ k * (1 / (((logBall min_n).lo : ℚ) : ℝ) ^ (k - t.dl))) := by
      rw [hsplit]
      apply mul_le_mul _ hyK (by positivity) (by positivity)
      apply mul_le_mul hmr _ (by positivity) hmr0
      exact mul_le_mul_of_nonneg_left hxK (by positivity)
    refine le_trans hstep (le_of_eq ?_)
    rw [habsq]
    push_cast
    have hmnR : ((min_n : ℝ)) ≠ 0 := by positivity
    have hloR' : (((logBall min_n).lo : ℚ) : ℝ) ≠ 0 := ne_of_gt hloR
    field_simp
  · simp only [truncTerm, if_neg h]
    exact term_unchanged_bound t z x y hz

/-- Summation over the monomial list. -/
lemma enclosure_aux (deg : ℕ) (min_n : ℚ) (kappa : Option ℕ) (x y : ℝ)
    (hmn : 0 < min_n) (hx : 0 < x) (hxm : x ≤ 1 / (min_n : ℝ))
    (hk : ∀ k, kappa = some k → 1 < min_n ∧ ((min_n : ℝ) - 1) / (min_n : ℝ) ≤ y) :
    ∀ (f : List Term) (phi : ℕ → ℂ),
      (∀ (i : ℕ) (t : Term), f[i]? = some t → t.c.mem (phi i)) →
      (∀ k, kappa = some k → ∀ t ∈ f, t.dl ≤ k) →
      Complex.abs (trueEval f phi x y - evalMid (truncate_tail f deg min_n kappa) x y)
        ≤ evalRad (truncate_tail f deg min_n kappa) x y := by
  intro f
  induction f with
  | nil =>
    intro phi _ _
    simp [trueEval, truncate_tail, evalMid, evalRad]
  | cons t ts ih =>
    intro phi hmem hdl
    have hz : t.c.mem (phi 0) := hmem 0 t (by simp)
    have hterm : Complex.abs (phi 0 * (x : ℂ) ^ t.dw * (y : ℂ) ^ t.dl
          - (truncTerm deg min_n kappa t).c.midC
              * (x : ℂ) ^ (truncTerm deg min_n kappa t).dw
              * (y : ℂ) ^ (truncTerm deg min_n kappa t).dl)
        ≤ ((truncTerm deg min_n kappa t).c.rad : ℝ)
            * |x| ^ (truncTerm deg min_n kappa t).dw
            * |y| ^ (truncTerm deg min_n kappa t).dl := by
      cases kappa with
      | none => exact truncTerm_bound_none deg min_n t (phi 0) x y hz hmn hx hxm
      | some k =>
        exact truncTerm_bound_some deg min_n k t (phi 0) x y hz (hk k rfl).1 hx hxm
          (hdl k rfl t (List.mem_cons_self t ts)) (hk k rfl).2
    have htail := ih (fun i => phi (i + 1))
      (fun i t' h => hmem (i + 1) t' (by simpa using h))
      (fun k hk' t' ht' => hdl k hk' t' (List.mem_cons_of_mem t ht'))
    have hconsT : trueEval (t :: ts) phi x y
        = phi 0 * (x : ℂ) ^ t.dw * (y : ℂ) ^ t.dl
            + trueEval ts (fun i => phi (i + 1)) x y := rfl
    have hconsM : evalMid (truncate_tail (t :: ts) deg min_n kappa) x y
        = (truncTerm deg min_n kappa t).c.midC
              * (x : ℂ) ^ (truncTerm deg min_n kappa t).dw
              * (y : ℂ) ^ (truncTerm deg min_n kappa t).dl
            + evalMid (truncate_tail ts deg min_n kappa) x y := rfl
    have hconsR : evalRad (truncate_tail (t :: ts) deg min_n kappa) x y
        = ((truncTerm deg min_n kappa t).c.rad : ℝ)
              * |x| ^ (truncTerm deg min_n kappa t).dw
              * |y| ^ (truncTerm deg min_n kappa t).dl
            + evalRad (truncate_tail ts deg min_n kappa) x y := rfl
    rw [hconsT, hconsM, hconsR]
    have hsplit : phi 0 * (x : ℂ) ^ t.dw * (y : ℂ) ^ t.dl
          + trueEval ts (fun i => phi (i + 1)) x y
          - ((truncTerm deg min_n kappa t).c.midC
              * (x : ℂ) ^ (truncTerm deg min_n kappa t).dw
              * (y : ℂ) ^ (truncTerm deg min_n kappa t).dl
            + evalMid (truncate_tail ts deg min_n kappa) x y)
        = (phi 0 * (x : ℂ) ^ t.dw * (y : ℂ) ^ t.dl
            - (truncTerm deg min_n kappa t).c.midC
                * (x : ℂ) ^ (truncTerm deg min_n kappa t).dw
                * (y : ℂ) ^ (truncTerm deg min_n kappa t).dl)
          + (trueEval ts (fun i => phi (i + 1)) x y
              - evalMid (truncate_tail ts deg min_n kappa) x y) := by ring
    rw [hsplit]
    calc Complex.abs _ ≤ _ := Complex.abs.add_le _ _
      _ ≤ _ := add_le_add hterm htail

/-- C2: soundness of `truncate_tail`.  For every polynomial `f` with ball
coefficients, every target degree, every `min_n > 0` (with `min_n > 1`
and all log-degrees at most `kappa` in the log-truncation branch), and
every concrete `n ≥ min_n`: whenever the true coefficients `phi i` lie in
the coefficient balls of `f`, the value of `f` at `(1/n, log n)` lies in
the ball obtained by evaluating `truncate_tail f deg min_n kappa` at
`(1/n, log n)`. -/
theorem truncate_tail_encloses (f : List Term) (phi : ℕ → ℂ) (deg : ℕ) (min_n : ℚ)
    (kappa : Option ℕ) (n : ℝ)
    (hmem : ∀ (i : ℕ) (t : Term), f[i]? = some t → t.c.mem (phi i))
    (hmn : 0 < min_n) (hn : (min_n : ℝ) ≤ n)
    (hkap : ∀ k, kappa = some k → 1 < min_n ∧ ∀ t ∈ f, t.dl ≤ k) :
    Complex.abs (trueEval f phi (1 / n) (Real.log n)
        - evalMid (truncate_tail f deg min_n kappa) (1 / n) (Real.log n))
      ≤ evalRad (truncate_tail f deg min_n kappa) (1 / n) (Real.log n) := by
  have hmnR : (0 : ℝ) < (min_n : ℝ) := by exact_mod_cast hmn
  have hn0 : (0 : ℝ) < n := lt_of_lt_of_le hmnR hn
  have hx : (0 : ℝ) < 1 / n := by positivity
  have hxm : 1 / n ≤ 1 / (min_n : ℝ) := one_div_le_one_div_of_le hmnR hn
  apply enclosure_aux deg min_n kappa (1 / n) (Real.log n) hmn hx hxm
    ?_ f phi hmem (fun k hk' => (hkap k hk').2)
  intro k hk'
  refine ⟨(hkap k hk').1, ?_⟩
  have h1 : Real.log (min_n : ℝ) ≤ Real.log n := Real.log_le_log hmnR hn
  have h2 : Real.log (1 / (min_n : ℝ)) ≤ 1 / (min_n : ℝ) - 1 :=
    Real.log_le_sub_one_of_pos (by positivity)
  rw [Real.log_div one_ne_zero (ne_of_gt hmnR), Real.log_one] at h2
  have h3 : ((min_n : ℝ) - 1) / (min_n : ℝ) = 1 - 1 / (min_n : ℝ) := by
    field_simp
  rw [h3]
  linarith

/-- Witness for `truncate_tail_encloses` at `f = [(0 ± 1) * w^2]`,
`deg = 1`, `min_n = 2`, `n = 2`, true coefficient `0`. -/
theorem truncate_tail_encloses_witness :
    (∀ (i : ℕ) (t : Term), ([⟨⟨0, 0, 1⟩, 2, 0⟩] : List Term)[i]? = some t
        → t.c.mem ((fun _ => (0 : ℂ)) i))
    ∧ (0 : ℚ) < 2
    ∧ ((2 : ℚ) : ℝ) ≤ 2
    ∧ (∀ k, (none : Option ℕ) = some k
        → 1 < (2 : ℚ) ∧ ∀ t ∈ ([⟨⟨0, 0, 1⟩, 2, 0⟩] : List Term), t.dl ≤ k)
    ∧ Complex.abs (trueEval [⟨⟨0, 0, 1⟩, 2, 0⟩] (fun _ => (0 : ℂ)) (1 / 2) (Real.log 2)
          - evalMid (truncate_tail [⟨⟨0, 0, 1⟩, 2, 0⟩] 1 2 none) (1 / 2) (Real.log 2))
        ≤ evalRad (truncate_tail [⟨⟨0, 0, 1⟩, 2, 0⟩] 1 2 none) (1 / 2) (Real.log 2) := by
  have hmem : ∀ (i : ℕ) (t : Term), ([⟨⟨0, 0, 1⟩, 2, 0⟩] : List Term)[i]? = some t
      → t.c.mem ((fun _ => (0 : ℂ)) i) := by
    intro i t h
    cases i with
    | zero =>
      simp at h
      subst h
      show Complex.abs (0 - CBall.midC ⟨0, 0, 1⟩) ≤ ((1 : ℚ) : ℝ)
      have hm : CBall.midC ⟨0, 0, 1⟩ = 0 := by
        simp [CBall.midC, Complex.ext_iff]
      rw [hm, sub_zero, map_zero]
      norm_num
    | succ j => simp at h
  have hkap : ∀ k, (none : Option ℕ) = some k
      → 1 < (2 : ℚ) ∧ ∀ t ∈ ([⟨⟨0, 0, 1⟩, 2, 0⟩] : List Term), t.dl ≤ k := by
    intro k h
    simp at h
  have hconc := truncate_tail_encloses [⟨⟨0, 0, 1⟩, 2, 0⟩] (fun _ => (0 : ℂ)) 1 2 none 2
    hmem (by norm_num) (by norm_num) hkap
  exact ⟨hmem, by norm_num, by norm_num, hkap, by simpa using hconc⟩

/-! ## Dominant singularities and the validity threshold
(`contribution_all_singularity`, lines 892-916 and 990-991)

Potential singularities are sorted by magnitude (line 892); `_sing_in_disk`
(lines 832-837) returns the prefix of magnitude at most `rad`; with an
explicit radius the source raises when the prefix is empty or when the
farthest retained singularity sits exactly on the radius (lines 901-906);
`N1` is the pairwise-spacing threshold (lines 909-916) and `N0` the final
threshold (line 991).  The float literal `2.1` is modelled by the exact
rational `21/10`. -/

/-- Python `max` of a list of reals (`max` errors on an empty list; the
default `0` is never used under the nonemptiness hypotheses below). -/
noncomputable def listMax : List ℝ → ℝ
  | [] => 0
  | x :: xs => xs.foldl max x

/-- Python `min` of a list of reals. -/
noncomputable def listMin : List ℝ → ℝ
  | [] => 0
  | x :: xs => xs.foldl min x

/-- Python `l[-1]`, the last element of a list. -/
def lastD : List ℂ → ℂ
  | [] => 0
  | [x] => x
  | _ :: x :: xs => lastD (x :: xs)

/-- Translation of `_sing_in_disk(elts, rad, infinity)` (lines 832-837):
the prefix of `elts` before the first element of magnitude above `rad`,
together with that magnitude (or `infinity`). -/
noncomputable def sing_in_disk : List ℂ → ℝ → ℝ → List ℂ × ℝ
  | [], _, inf => ([], inf)
  | x :: rest, rad, inf =>
    if Complex.abs x > rad then ([], Complex.abs x)
    else
      ((x :: (sing_in_disk rest rad inf).1), (sing_in_disk rest rad inf).2)

/-- Translation of the explicit-radius branch of
`contribution_all_singularity` (lines 901-906): keep the singularities in
the closed disk of radius `rad`, raising a `ValueError` when there are
none or when the farthest one has magnitude exactly `rad`. -/
noncomputable def dominant_sing_given_rad (singularities : List ℂ) (rad : ℝ) :
    Except PyError (List ℂ) :=
  if ((sing_in_disk singularities rad
        (Complex.abs (lastD singularities) * 2 + rad * 2)).1).isEmpty then
    .error (.valueError "No singularity in given disk")
  else if Complex.abs (lastD (sing_in_disk singularities rad
        (Complex.abs (lastD singularities) * 2 + rad * 2)).1) = rad then
    .error (.valueError "A singularity is on the given radius")
  else
    .ok (sing_in_disk singularities rad
        (Complex.abs (lastD singularities) * 2 + rad * 2)).1

/-- The list of pairwise distances `abs(s0 - s1)` over pairs of distinct
elements (the generator of line 911-913). -/
noncomputable def pairDists (l : List ℂ) : List ℝ :=
  (l.product l).filterMap fun p =>
    if p.1 ≠ p.2 then some (Complex.abs (p.1 - p.2)) else none

/-- `min_dist`, the minimum pairwise distance between dominant
singularities (line 911). -/
noncomputable def minPairDist (l : List ℂ) : ℝ := listMin (pairDists l)

/-- Translation of lines 909-916: the pairwise-spacing threshold `N1`. -/
noncomputable def N1_of (dominant_sing : List ℂ) : ℤ :=
  if 1 < dominant_sing.length then
    ⌈2 * Complex.abs (lastD dominant_sing) / minPairDist dominant_sing⌉
  else 0

/-- Translation of line 991: the validity threshold
`N0 = max(ceil(2.1 * (max |val| + total_order + 1)), N1)`. -/
noncomputable def N0_of (list_all_val : List ℂ) (total_order : ℕ)
    (dominant_sing : List ℂ) : ℤ :=
  max ⌈(21 / 10 : ℝ) * (listMax (list_all_val.map Complex.abs) + total_order + 1)⌉
    (N1_of dominant_sing)

lemma le_foldl_max (xs : List ℝ) (a : ℝ) :
    a ≤ xs.foldl max a ∧ ∀ x ∈ xs, x ≤ xs.foldl max a := by
  induction xs generalizing a with
  | nil => simp
  | cons x xs ih =>
    refine ⟨le_trans (le_max_left a x) (ih (max a x)).1, ?_⟩
    intro z hz
    rcases List.mem_cons.mp hz with rfl | hz
    · exact le_trans (le_max_right a z) (ih (max a z)).1
    · exact (ih (max a x)).2 z hz

lemma foldl_max_mem (xs : List ℝ) (a : ℝ) :
    xs.foldl max a = a ∨ xs.foldl max a ∈ xs := by
  induction xs generalizing a with
  | nil => left; rfl
  | cons x xs ih =>
    rcases ih (max a x) with h | h
    · rcases le_total a x with hax | hax
      · right
        rw [List.foldl_cons, h, max_eq_right hax]
        exact List.mem_cons_self x xs
      · left
        rw [List.foldl_cons, h, max_eq_left hax]
    · right
      exact List.mem_cons_of_mem x h

lemma foldl_min_le (xs : List ℝ) (a : ℝ) :
    xs.foldl min a ≤ a ∧ ∀ x ∈ xs, xs.foldl min a ≤ x := by
  induction xs generalizing a with
  | nil => simp
  | cons x xs ih =>
    refine ⟨le_trans (ih (min a x)).1 (min_le_left a x), ?_⟩
    intro z hz
    rcases List.mem_cons.mp hz with rfl | hz
    · exact le_trans (ih (min a z)).1 (min_le_right a z)
    · exact (ih (min a x)).2 z hz

lemma foldl_min_mem (xs : List ℝ) (a : ℝ) :
    xs.foldl min a = a ∨ xs.foldl min a ∈ xs := by
  induction xs generalizing a with
  | nil => left; rfl
  | cons x xs ih =>
    rcases ih (min a x) with h | h
    · rcases le_total a x with hax | hax
      · left
        rw [List.foldl_cons, h, min_eq_left hax]
      · right
        rw [List.foldl_cons, h, min_eq_right hax]
        exact List.mem_cons_self x xs
    · right
      exact List.mem_cons_of_mem x h

lemma listMax_isGreatest (l : List ℝ) (h : l ≠ []) :
    listMax l ∈ l ∧ ∀ x ∈ l, x ≤ listMax l := by
  match l with
  | x :: xs =>
    constructor
    · rcases foldl_max_mem xs x with h1 | h1
      · rw [listMax, h1]
        exact List.mem_cons_self x xs
      · rw [listMax]
        exact List.mem_cons_of_mem x h1
    · intro z hz
      rcases List.mem_cons.mp hz with rfl | hz
      · exact (le_foldl_max xs z).1
      · exact (le_foldl_max xs x).2 z hz

lemma listMin_isLeast (l : List ℝ) (h : l ≠ []) :
    listMin l ∈ l ∧ ∀ x ∈ l, listMin l ≤ x := by
  match l with
  | x :: xs =>
    constructor
    · rcases foldl_min_mem xs x with h1 | h1
      · rw [listMin, h1]
        exact List.mem_cons_self x xs
      · rw [listMin]
        exact List.mem_cons_of_mem x h1
    · intro z hz
      rcases List.mem_cons.mp hz with rfl | hz
      · exact (foldl_min_le xs z).1
      · exact (foldl_min_le xs x).2 z hz

lemma lastD_mem : ∀ (l : List ℂ), l ≠ [] → lastD l ∈ l := by
  intro l
  induction l with
  | nil => intro h; exact absurd rfl h
  | cons a m ih =>
    intro _
    match m with
    | [] => simp [lastD]
    | b :: ms =>
      have := ih (by simp)
      rw [lastD]
      exact List.mem_cons_of_mem a this

lemma sorted_abs_le_lastD :
    ∀ (l : List ℂ), l.Sorted (fun a b => Complex.abs a ≤ Complex.abs b) →
      ∀ x ∈ l, Complex.abs x ≤ Complex.abs (lastD l) := by
  intro l
  induction l with
  | nil => intro _ x hx; simp at hx
  | cons a m ih =>
    intro hs x hx
    rw [List.sorted_cons] at hs
    match m with
    | [] =>
      rcases List.mem_cons.mp hx with rfl | hx
      · simp [lastD]
      · simp at hx
    | b :: ms =>
      rw [lastD]
      rcases List.mem_cons.mp hx with rfl | hx
      · exact hs.1 _ (lastD_mem (b :: ms) (by simp))
      · exact ih hs.2 x hx

lemma mem_pairDists {l : List ℂ} {x : ℝ} :
    x ∈ pairDists l
      ↔ ∃ s0 ∈ l, ∃ s1 ∈ l, s0 ≠ s1 ∧ Complex.abs (s0 - s1) = x := by
  unfold pairDists
  rw [List.mem_filterMap]
  constructor
  · rintro ⟨⟨a, b⟩, hab, hx⟩
    rw [List.pair_mem_product] at hab
    by_cases h : a ≠ b
    · rw [if_pos h] at hx
      exact ⟨a, hab.1, b, hab.2, h, Option.some_injective _ hx⟩
    · rw [if_neg h] at hx
      simp at hx
  · rintro ⟨s0, h0, s1, h1, hne, rfl⟩
    exact ⟨(s0, s1), List.pair_mem_product.mpr ⟨h0, h1⟩, by rw [if_pos hne]⟩

lemma sid_mem_le {rad : ℝ} :
    ∀ (l : List ℂ) (inf : ℝ) (s : ℂ), s ∈ (sing_in_disk l rad inf).1 →
      Complex.abs s ≤ rad := by
  intro l
  induction l with
  | nil => intro inf s hs; simp [sing_in_disk] at hs
  | cons x rest ih =>
    intro inf s hs
    rw [sing_in_disk] at hs
    by_cases h : Complex.abs x > rad
    · rw [if_pos h] at hs
      simp at hs
    · rw [if_neg h] at hs
      rcases List.mem_cons.mp hs with rfl | hs
      · exact not_lt.mp h
      · exact ih inf s hs

lemma sid_subset {rad : ℝ} :
    ∀ (l : List ℂ) (inf : ℝ) (s : ℂ), s ∈ (sing_in_disk l rad inf).1 → s ∈ l := by
  intro l
  induction l with
  | nil => intro inf s hs; simp [sing_in_disk] at hs
  | cons x rest ih =>
    intro inf s hs
    rw [sing_in_disk] at hs
    by_cases h : Complex.abs x > rad
    · rw [if_pos h] at hs
      simp at hs
    · rw [if_neg h] at hs
      rcases List.mem_cons.mp hs with rfl | hs
      · exact List.mem_cons_self s rest
      · exact List.mem_cons_of_mem x (ih inf s hs)

lemma sid_complete {rad : ℝ} :
    ∀ (l : List ℂ), l.Sorted (fun a b => Complex.abs a ≤ Complex.abs b) →
      ∀ (inf : ℝ) (s : ℂ), s ∈ l → Complex.abs s ≤ rad →
        s ∈ (sing_in_disk l rad inf).1 := by
  intro l
  induction l with
  | nil => intro _ inf s hs; simp at hs
  | cons x rest ih =>
    intro hsort inf s hs hle
    rw [List.sorted_cons] at hsort
    rw [sing_in_disk]
    by_cases h : Complex.abs x > rad
    · exfalso
      rcases List.mem_cons.mp hs with rfl | hs
      · exact absurd hle (not_le.mpr h)
      · exact absurd hle (not_le.mpr (lt_of_lt_of_le h (hsort.1 s hs)))
    · rw [if_neg h]
      rcases List.mem_cons.mp hs with rfl | hs
      · exact List.mem_cons_self s _
      · exact List.mem_cons_of_mem x (ih hsort.2 inf s hs hle)

lemma sid_sorted {rad : ℝ} :
    ∀ (l : List ℂ), l.Sorted (fun a b => Complex.abs a ≤ Complex.abs b) →
      ∀ (inf : ℝ), ((sing_in_disk l rad inf).1).Sorted
        (fun a b => Complex.abs a ≤ Complex.abs b) := by
  intro l
  induction l with
  | nil => intro _ inf; simp [sing_in_disk]
  | cons x rest ih =>
    intro hsort inf
    rw [List.sorted_cons] at hsort
    rw [sing_in_disk]
    by_cases h : Complex.abs x > rad
    · rw [if_pos h]
      simp
    · rw [if_neg h]
      rw [List.sorted_cons]
      exact ⟨fun b hb => hsort.1 b (sid_subset rest inf b hb), ih hsort.2 inf⟩

lemma sid_nil_iff {rad : ℝ} :
    ∀ (l : List ℂ), l.Sorted (fun a b => Complex.abs a ≤ Complex.abs b) →
      ∀ (inf : ℝ), ((sing_in_disk l rad inf).1 = []
        ↔ ∀ s ∈ l, rad < Complex.abs s) := by
  intro l
  induction l with
  | nil => intro _ inf; simp [sing_in_disk]
  | cons x rest ih =>
    intro hsort inf
    rw [List.sorted_cons] at hsort
    rw [sing_in_disk]
    by_cases h : Complex.abs x > rad
    · rw [if_pos h]
      simp only [eq_self_iff_true, true_iff]
      intro s hs
      rcases List.mem_cons.mp hs with rfl | hs
      · exact h
      · exact lt_of_lt_of_le h (hsort.1 s hs)
    · rw [if_neg h]
      constructor
      · intro hfalse
        exact absurd hfalse (List.cons_ne_nil _ _)
      · intro hall
        exact absurd (hall x (List.mem_cons_self x rest)) h

/-- C7: with an explicit big-circle radius, `contribution_all_singularity`
fails with a `ValueError` exactly when no potential singularity lies in
the closed disk of radius `rad`, or some singularity has modulus exactly
`rad` (such a singularity is necessarily among the retained dominant
ones); otherwise the dominant singularities are returned and no error is
raised. -/
theorem radius_checks_spec (sings : List ℂ) (rad : ℝ)
    (hs : sings.Sorted (fun a b => Complex.abs a ≤ Complex.abs b)) :
    (∃ e, dominant_sing_given_rad sings rad = .error e)
      ↔ (∀ s ∈ sings, rad < Complex.abs s)
        ∨ (∃ s ∈ sings, Complex.abs s = rad) := by
  set inf := Complex.abs (lastD sings) * 2 + rad * 2 with hinf
  by_cases h1 : (sing_in_disk sings rad inf).1 = []
  · constructor
    · intro _
      left
      exact (sid_nil_iff sings hs inf).mp h1
    · intro _
      refine ⟨.valueError "No singularity in given disk", ?_⟩
      rw [dominant_sing_given_rad, if_pos]
      rw [List.isEmpty_iff]
      exact h1
  · by_cases h2 : Complex.abs (lastD (sing_in_disk sings rad inf).1) = rad
    · constructor
      · intro _
        right
        refine ⟨lastD (sing_in_disk sings rad inf).1, ?_, h2⟩
        exact sid_subset sings inf _ (lastD_mem _ h1)
      · intro _
        refine ⟨.valueError "A singularity is on the given radius", ?_⟩
        rw [dominant_sing_given_rad, if_neg, if_pos h2]
        rw [List.isEmpty_iff]
        exact h1
    · constructor
      · rintro ⟨e, he⟩
        rw [dominant_sing_given_rad, if_neg, if_neg h2] at he
        · exact absurd he (by simp)
        · rw [List.isEmpty_iff]
          exact h1
      · rintro (hall | ⟨s, hsmem, habs⟩)
        · exact absurd ((sid_nil_iff sings hs inf).mpr hall) h1
        · exfalso
          have hmem : s ∈ (sing_in_disk sings rad inf).1 :=
            sid_complete sings hs inf s hsmem (le_of_eq habs)
          have hle : Complex.abs (lastD (sing_in_disk sings rad inf).1) ≤ rad :=
            sid_mem_le sings inf _ (lastD_mem _ h1)
          have hge : Complex.abs s ≤ Complex.abs (lastD (sing_in_disk sings rad inf).1) :=
            sorted_abs_le_lastD _ (sid_sorted sings hs inf) s hmem
          exact h2 (le_antisymm hle (habs ▸ hge))

/-- Witness for `radius_checks_spec` at `sings = [1]`, `rad = 2`. -/
theorem radius_checks_spec_witness :
    (([(1 : ℂ)]).Sorted (fun a b => Complex.abs a ≤ Complex.abs b))
    ∧ ((∃ e, dominant_sing_given_rad [(1 : ℂ)] 2 = .error e)
        ↔ (∀ s ∈ [(1 : ℂ)], (2 : ℝ) < Complex.abs s)
          ∨ (∃ s ∈ [(1 : ℂ)], Complex.abs s = 2)) :=
  ⟨List.sorted_singleton _, radius_checks_spec [(1 : ℂ)] 2 (List.sorted_singleton _)⟩

/-- C6: the validity threshold `N0` equals the maximum of
`ceil(2.1 * (max |val| + total_order + 1))` over the retained local
exponents and the pairwise-spacing threshold `N1`, where `N1` is
`ceil(2 * |farthest dominant singularity| / min pairwise distance)` when
there is more than one dominant singularity and `0` otherwise. -/
theorem N0_characterization (vals doms : List ℂ) (t : ℕ)
    (hv : vals ≠ []) (hd : doms ≠ []) (hnd : doms.Nodup)
    (hsort : doms.Sorted (fun a b => Complex.abs a ≤ Complex.abs b)) :
    ∃ M, IsGreatest {x : ℝ | ∃ v ∈ vals, Complex.abs v = x} M
      ∧ ((doms.length ≤ 1
            ∧ N0_of vals t doms = max ⌈(21 / 10 : ℝ) * (M + t + 1)⌉ 0)
        ∨ (1 < doms.length
            ∧ ∃ D m, IsGreatest {x : ℝ | ∃ s ∈ doms, Complex.abs s = x} D
              ∧ IsLeast {x : ℝ | ∃ s0 ∈ doms, ∃ s1 ∈ doms,
                    s0 ≠ s1 ∧ Complex.abs (s0 - s1) = x} m
              ∧ N0_of vals t doms
                  = max ⌈(21 / 10 : ℝ) * (M + t + 1)⌉ ⌈2 * D / m⌉)) := by
  have hmapne : vals.map Complex.abs ≠ [] := by
    simp [hv]
  have hMg := listMax_isGreatest (vals.map Complex.abs) hmapne
  refine ⟨listMax (vals.map Complex.abs), ⟨?_, ?_⟩, ?_⟩
  · rcases List.mem_map.mp hMg.1 with ⟨v, hvmem, hveq⟩
    exact ⟨v, hvmem, hveq⟩
  · rintro x ⟨v, hvmem, rfl⟩
    exact hMg.2 (Complex.abs v) (List.mem_map.mpr ⟨v, hvmem, rfl⟩)
  · by_cases hlen : 1 < doms.length
    · right
      refine ⟨hlen, Complex.abs (lastD doms), minPairDist doms, ⟨?_, ?_⟩, ⟨?_, ?_⟩, ?_⟩
      · exact ⟨lastD doms, lastD_mem doms hd, rfl⟩
      · rintro x ⟨s, hsmem, rfl⟩
        exact sorted_abs_le_lastD doms hsort s hsmem
      · -- the minimum pairwise distance is attained
        have hne : pairDists doms ≠ [] := by
          match doms, hlen with
          | a :: b :: rest, _ =>
            have hab : a ≠ b := by
              intro hcontra
              rw [List.nodup_cons] at hnd
              exact hnd.1 (hcontra ▸ List.mem_cons_self b rest)
            have : Complex.abs (a - b) ∈ pairDists (a :: b :: rest) :=
              mem_pairDists.mpr ⟨a, List.mem_cons_self _ _, b,
                List.mem_cons_of_mem _ (List.mem_cons_self _ _), hab, rfl⟩
            exact List.ne_nil_of_mem this
        have := (listMin_isLeast (pairDists doms) hne).1
        exact mem_pairDists.mp this
      · rintro x ⟨s0, h0, s1, h1, hne01, rfl⟩
        exact (listMin_isLeast (pairDists doms) (List.ne_nil_of_mem
          (mem_pairDists.mpr ⟨s0, h0, s1, h1, hne01, rfl⟩))).2 _
          (mem_pairDists.mpr ⟨s0, h0, s1, h1, hne01, rfl⟩)
      · rw [N0_of, N1_of, if_pos hlen]
    · left
      refine ⟨not_lt.mp hlen, ?_⟩
      rw [N0_of, N1_of, if_neg hlen]

/-- Witness for `N0_characterization` at `vals = [0]`, `doms = [1]`,
`total_order = 0`. -/
theorem N0_characterization_witness :
    ([(0 : ℂ)] ≠ ([] : List ℂ))
    ∧ ([(1 : ℂ)] ≠ ([] : List ℂ))
    ∧ ([(1 : ℂ)]).Nodup
    ∧ ([(1 : ℂ)]).Sorted (fun a b => Complex.abs a ≤ Complex.abs b)
    ∧ (∃ M, IsGreatest {x : ℝ | ∃ v ∈ [(0 : ℂ)], Complex.abs v = x} M
      ∧ (([(1 : ℂ)] : List ℂ).length ≤ 1
            ∧ N0_of [(0 : ℂ)] 0 [(1 : ℂ)]
                = max ⌈(21 / 10 : ℝ) * (M + ((0 : ℕ) : ℝ) + 1)⌉ 0
        ∨ (1 < ([(1 : ℂ)] : List ℂ).length
            ∧ ∃ D m, IsGreatest {x : ℝ | ∃ s ∈ [(1 : ℂ)], Complex.abs s = x} D
              ∧ IsLeast {x : ℝ | ∃ s0 ∈ [(1 : ℂ)], ∃ s1 ∈ [(1 : ℂ)],
                    s0 ≠ s1 ∧ Complex.abs (s0 - s1) = x} m
              ∧ N0_of [(0 : ℂ)] 0 [(1 : ℂ)]
                  = max ⌈(21 / 10 : ℝ) * (M + ((0 : ℕ) : ℝ) + 1)⌉ ⌈2 * D / m⌉))) :=
  ⟨by simp, by simp, by simp, List.sorted_singleton _,
    N0_characterization [(0 : ℂ)] [(1 : ℂ)] 0 (by simp) (by simp) (by simp)
      (List.sorted_singleton _)⟩

/-- Witness for `process_modZ_guard` at `min_n = 10`, `|leftmost| = 1`,
`order = 2`. -/
theorem process_modZ_guard_witness :
    ((0 : ℚ) < 1 + |((2 : ℤ) : ℚ)|)
    ∧ (((∃ e, process_modZ_check 10 1 2 = .error e)
          ↔ ⌊(10 : ℚ) / (1 + |((2 : ℤ) : ℚ)|)⌋ ≤ 2)
      ∧ (⌊(10 : ℚ) / (1 + |((2 : ℤ) : ℚ)|)⌋ ≤ 2
          ↔ (10 : ℚ) < 3 * (1 + |((2 : ℤ) : ℚ)|))) :=
  ⟨by norm_num, process_modZ_guard 10 1 2 (by norm_num)⟩

end OreSing
